import Mathlib

/-!
Verification of the 8xx early-boot MMU mapping manager
(`arch/powerpc/mm/nohash/8xx.c`).

The file shallowly embeds the C source: machine `unsigned long` / `phys_addr_t`
arithmetic is modelled with `Nat`, with an explicit `% 2 ^ 32` applied at the
one computation whose 32-bit sum can exceed `2 ^ 32` for in-range inputs (the
lookaside-buffer flush range of `mmu_mapin_ram_chunk`, where the code adds
`PAGE_OFFSET` to a virtual address that already contains `PAGE_OFFSET`).
Everywhere else the values the program manipulates (physical offsets below the
1 GB linear window, virtual addresses below `2 ^ 32`) stay below `2 ^ 32`, so
plain `Nat` arithmetic coincides with the C arithmetic.
-/

namespace Mmu8xx

/-! ### Platform constants

`SZ_*` are the generic kernel size macros; `PAGE_OFFSET` is the 32-bit powerpc
kernel linear-map base `0xc0000000`; `PAGE_SHIFT` is 12 (4 KB base pages).
`IMMR_SIZE` is `FIX_IMMR_SIZE << PAGE_SHIFT` as in the source, where the
fixmap reserves `SZ_512K >> PAGE_SHIFT` pages for the IMMR register bank. -/

def PAGE_SHIFT : Nat := 12

def SZ_4K : Nat := 0x1000

def SZ_512K : Nat := 0x80000

def SZ_8M : Nat := 0x800000

def SZ_32M : Nat := 0x2000000

def PAGE_OFFSET : Nat := 0xc0000000

def FIX_IMMR_SIZE : Nat := SZ_512K >>> PAGE_SHIFT

def IMMR_SIZE : Nat := FIX_IMMR_SIZE <<< PAGE_SHIFT

/-- `ALIGN_DOWN(x, a)` for the power-of-two alignments the source uses:
`x & ~(a - 1) = x / a * a`. -/
def alignDown (x a : Nat) : Nat := x / a * a

/-- `ALIGN(x, a)` (round up) for the power-of-two alignments the source uses:
`(x + a - 1) & ~(a - 1) = (x + (a - 1)) / a * a`. -/
def alignUp (x a : Nat) : Nat := alignDown (x + (a - 1)) a

/-! ### The Linux page-size classes the installer accepts

`__early_map_kernel_hugepage` rejects any `psize` other than `MMU_PAGE_512K`
and `MMU_PAGE_8M` (its first `WARN_ON`); the closed enumeration models the
two accepted size classes (the spec's `SizeClass`). -/

inductive MmuPsize where
  | MMU_PAGE_512K
  | MMU_PAGE_8M
deriving DecidableEq, Repr

/-- `1UL << mmu_psize_to_shift(psize)`: the bytes covered by one entry. -/
def psizeBytes : MmuPsize → Nat
  | .MMU_PAGE_512K => SZ_512K
  | .MMU_PAGE_8M => SZ_8M

/-- One call `__early_map_kernel_hugepage(v, p, prot, psize, new)` made by the
chunk loops of `mmu_mapin_ram_chunk` (the protection and mode are the same for
every chunk of one call, so they are not repeated per chunk). -/
structure Chunk where
  v : Nat
  p : Nat
  psize : MmuPsize
deriving DecidableEq, Repr

/-- The outcome of the chunk installer, abstracted: `ok v p psize = true`
means the install of that chunk returns 0.  `mmu_mapin_ram_chunk` only looks
at whether the returned `err` is zero. -/
def Installer : Type := Nat → Nat → MmuPsize → Bool

/-- The installer oracle for runs in which no chunk install fails. -/
def okAll : Installer := fun _ _ _ => true

/-! Each loop recurses on an explicit bound `fuel`: every iteration of every
loop advances `p` by at least `SZ_512K ≥ 1` while its guard requires
`p < top`, so `top - p ≤ fuel` iterations can never be cut short — the bound
only serves structural recursion and `mmu_mapin_ram_chunk_run` passes
`fuel = top` (the `chunkLoop*_spec` lemmas below prove the loops reach their
C exit condition, never the bound). -/

/-- First loop of `mmu_mapin_ram_chunk`:
`for (; p < ALIGN(p, SZ_8M) && p < top && !err; p += SZ_512K, v += SZ_512K)
   err = __early_map_kernel_hugepage(v, p, prot, MMU_PAGE_512K, new);`
Returns the attempted chunks and the final `v`, `p`, `err`. -/
def chunkLoop1 (ok : Installer) : Nat → Nat → Nat → Nat → Bool →
    List Chunk × Nat × Nat × Bool
  | 0, v, p, _top, err => ([], v, p, err)
  | fuel + 1, v, p, top, err =>
    if p < alignUp p SZ_8M ∧ p < top ∧ err = false then
      let r := chunkLoop1 ok fuel (v + SZ_512K) (p + SZ_512K) top
        (!(ok v p MmuPsize.MMU_PAGE_512K))
      (⟨v, p, MmuPsize.MMU_PAGE_512K⟩ :: r.1, r.2)
    else ([], v, p, err)

/-- Second loop of `mmu_mapin_ram_chunk`:
`for (; p < ALIGN_DOWN(top, SZ_8M) && p < top && !err; p += SZ_8M, v += SZ_8M)
   err = __early_map_kernel_hugepage(v, p, prot, MMU_PAGE_8M, new);` -/
def chunkLoop2 (ok : Installer) : Nat → Nat → Nat → Nat → Bool →
    List Chunk × Nat × Nat × Bool
  | 0, v, p, _top, err => ([], v, p, err)
  | fuel + 1, v, p, top, err =>
    if p < alignDown top SZ_8M ∧ p < top ∧ err = false then
      let r := chunkLoop2 ok fuel (v + SZ_8M) (p + SZ_8M) top
        (!(ok v p MmuPsize.MMU_PAGE_8M))
      (⟨v, p, MmuPsize.MMU_PAGE_8M⟩ :: r.1, r.2)
    else ([], v, p, err)

/-- Third loop of `mmu_mapin_ram_chunk`:
`for (; p < ALIGN_DOWN(top, SZ_512K) && p < top && !err; p += SZ_512K, v += SZ_512K)
   err = __early_map_kernel_hugepage(v, p, prot, MMU_PAGE_512K, new);` -/
def chunkLoop3 (ok : Installer) : Nat → Nat → Nat → Nat → Bool →
    List Chunk × Nat × Nat × Bool
  | 0, v, p, _top, err => ([], v, p, err)
  | fuel + 1, v, p, top, err =>
    if p < alignDown top SZ_512K ∧ p < top ∧ err = false then
      let r := chunkLoop3 ok fuel (v + SZ_512K) (p + SZ_512K) top
        (!(ok v p MmuPsize.MMU_PAGE_512K))
      (⟨v, p, MmuPsize.MMU_PAGE_512K⟩ :: r.1, r.2)
    else ([], v, p, err)

/-- The three chunk loops of `mmu_mapin_ram_chunk(offset, top, prot, new)`,
entered with `v = PAGE_OFFSET + offset`, `p = offset`, `err = 0`, each loop
starting from the `v`, `p`, `err` the previous one left.  Result: the chunks
whose install was attempted (in order), then the final `v`, `p`, `err`. -/
def mmu_mapin_ram_chunk_run (ok : Installer) (offset top : Nat) :
    List Chunk × Nat × Nat × Bool :=
  let r1 := chunkLoop1 ok top (PAGE_OFFSET + offset) offset top false
  let r2 := chunkLoop2 ok top r1.2.1 r1.2.2.1 top r1.2.2.2
  let r3 := chunkLoop3 ok top r2.2.1 r2.2.2.1 top r2.2.2.2
  (r1.1 ++ r2.1 ++ r3.1, r3.2)

/-- The `err` value `mmu_mapin_ram_chunk` returns (`false` = 0 = success). -/
def mmu_mapin_ram_chunk_err (ok : Installer) (offset top : Nat) : Bool :=
  (mmu_mapin_ram_chunk_run ok offset top).2.2.2

/-- The argument pair of `flush_tlb_kernel_range(PAGE_OFFSET + v, PAGE_OFFSET + top)`
that `mmu_mapin_ram_chunk` performs when `new` is false, after the loops, with
`v` the final value of the loop variable.  Both sums are `unsigned long`
additions, reduced mod `2 ^ 32`: the first one genuinely wraps, because the
final `v` already contains `PAGE_OFFSET`. -/
def mmu_mapin_ram_chunk_flush (ok : Installer) (offset top : Nat) : Nat × Nat :=
  ((PAGE_OFFSET + (mmu_mapin_ram_chunk_run ok offset top).2.1) % 2 ^ 32,
   (PAGE_OFFSET + top) % 2 ^ 32)

/-! ### The address translators (`v_block_mapped` / `p_block_mapped`)

`PHYS_IMMR_BASE` (read from the IMMR special register at run time) and
`VIRT_IMMR_BASE` (a fixmap address) are external constants, so the two
functions are parametrised by them, and by the current value of the state
variable `block_mapped_ram`.  `__pa(va) = va - PAGE_OFFSET` and
`__va(pa) = pa + PAGE_OFFSET` on 32-bit powerpc.  Inside the guarded branches
no 32-bit subtraction can underflow and (for a 512 KB-aligned IMMR base, as
the hardware register guarantees) no sum exceeds `2 ^ 32`, so `Nat`
arithmetic coincides with the C arithmetic.  The value 0 doubles as the
"not mapped" answer of both functions. -/

/-- `v_block_mapped(va)`: return the PA for `va` if it is in the IMMR window
or the block-mapped RAM window, else 0; the IMMR window is checked first. -/
def v_block_mapped (physImmrBase virtImmrBase block_mapped_ram va : Nat) : Nat :=
  if virtImmrBase ≤ va ∧ va < virtImmrBase + IMMR_SIZE then
    physImmrBase + va - virtImmrBase
  else if PAGE_OFFSET ≤ va ∧ va < PAGE_OFFSET + block_mapped_ram then
    va - PAGE_OFFSET
  else 0

/-- `p_block_mapped(pa)`: return the VA for `pa` if it is in the IMMR window
or below `block_mapped_ram`, else 0; the IMMR window is checked first. -/
def p_block_mapped (physImmrBase virtImmrBase block_mapped_ram pa : Nat) : Nat :=
  if physImmrBase ≤ pa ∧ pa < physImmrBase + IMMR_SIZE then
    virtImmrBase + pa - physImmrBase
  else if pa < block_mapped_ram then
    pa + PAGE_OFFSET
  else 0

/-! ### The page installer (`__early_map_kernel_hugepage`) and its table

The page-table/directory representation (`pmd_off_k`, `early_pte_alloc_kernel`,
`pte_offset_kernel`, `hugepte_offset`, `pte_present`, `set_huge_pte_at`) is an
external collaborator of this file (spec section 3, "MappingEntry ...  Owned by
the page/directory-entry table (external collaborator)"), so the entry store is
modelled from the spec while the branch structure, mode distinction and checks
are translated from `__early_map_kernel_hugepage` itself. -/

/-- Modelled from the spec: a `MappingEntry` is
"(virtualAddress, physicalAddress, sizeClass, protection, present: bool)";
the virtual address and size class are the table key, the rest is stored.
`present` models `pte_present(*ptep)`: a pte written with a null protection
value has no present bit. -/
structure MappingEntry where
  physicalAddress : Nat
  protection : Nat
  present : Bool
deriving DecidableEq, Repr

/-- The spec's error taxonomy for `install` (section 7); the C function
reports `InvalidSizeClass`, `AllocatorActive` and `OverwriteAttempt` as
`-EINVAL` and `AllocationFailure`/`MissingEntry` as `-ENOMEM` (a NULL
`ptep`). -/
inductive InstallError where
  | InvalidSizeClass
  | AllocatorActive
  | AllocationFailure
  | MissingEntry
  | OverwriteAttempt
deriving DecidableEq, Repr

/-- Modelled from the spec: the mapping-entry table keyed by
`(virtualAddress, sizeClass)`, plus the two boot conditions the installer
consults: whether the general allocator is live (`slab_is_available()`) and
whether the early allocator can still satisfy a slot allocation
(`early_pte_alloc_kernel` / `early_hugepd_alloc_kernel` returning non-NULL). -/
structure MState where
  table : Nat → MmuPsize → Option MappingEntry
  slabAvailable : Bool
  memAvail : Bool

/-- Modelled from the spec: `set_huge_pte_at` writes the single mapping entry
for `(va, psize)`; the written pte is present exactly when the protection
value is non-null. -/
def setEntry (st : MState) (va pa prot : Nat) (psize : MmuPsize) : MState :=
  { st with
    table := fun v s =>
      if v = va ∧ s = psize then some ⟨pa, prot, decide (prot ≠ 0)⟩
      else st.table v s }

/-- `__early_map_kernel_hugepage(va, pa, prot, psize, new)`.  The size-class
check (`WARN_ON(psize != MMU_PAGE_512K && psize != MMU_PAGE_8M)`) is carried
by the closed `MmuPsize` enumeration, so `InvalidSizeClass` is unreachable in
the model.  In `new` mode the entry slot is located or allocated
(`early_pte_alloc_kernel` / `early_hugepd_alloc_kernel`); a fresh slot holds a
zeroed, non-present pte, so the overwrite check
`new && WARN_ON(pte_present(*ptep) && pgprot_val(prot))` only fires on a slot
that already holds a present entry, and only when the *requested* protection
is non-null.  In `!new` mode the slot is looked up and a missing one is the
NULL-`ptep` failure. -/
def __early_map_kernel_hugepage (st : MState) (va pa prot : Nat)
    (psize : MmuPsize) (new : Bool) : Except InstallError Unit × MState :=
  if new then
    if st.slabAvailable then (.error .AllocatorActive, st)
    else
      match st.table va psize with
      | some e =>
        if e.present = true ∧ prot ≠ 0 then (.error .OverwriteAttempt, st)
        else (.ok (), setEntry st va pa prot psize)
      | none =>
        if st.memAvail then (.ok (), setEntry st va pa prot psize)
        else (.error .AllocationFailure, st)
  else
    match st.table va psize with
    | some _ => (.ok (), setEntry st va pa prot psize)
    | none => (.error .MissingEntry, st)

/-! ### The huge-entry allocator (`early_hugepd_alloc_kernel`)

The directory is modelled as its array of slot values (`hpd_val`), indexed by
slot number; value 0 is the empty sentinel the C code tests
(`hpd_val(*pmdp) == 0`).  `memblock_alloc` is modelled by the value it would
return (`0` = NULL = failure), and every request made to it is recorded as a
`(size, align)` pair — the source requests `sizeof(pte_basic_t)` bytes
(4 bytes: `pte_basic_t` is `unsigned long` on this 32-bit platform) aligned to
`SZ_4K`.  `hugepd_populate_kernel(slot, ptep, PAGE_SHIFT_8M)` is modelled from
the spec as registering the allocated sub-table handle in the slot. -/

def sizeof_pte_basic_t : Nat := 4

/-- `PAGE_SIZE = 1 << PAGE_SHIFT`. -/
def PAGE_SIZE : Nat := 1 <<< PAGE_SHIFT

def PGDIR_SHIFT : Nat := 22

def PAGE_SHIFT_8M : Nat := 23

/-- `hugepte_offset(hpd, addr, PGDIR_SHIFT)`: the sub-entry of the sub-table
`hpd` addressed by `va` — the sub-table base plus the index
`(va & ((1 << PGDIR_SHIFT) - 1)) >> PAGE_SHIFT_8M` (which is always 0 on this
platform: an 8 MB directory sub-table holds a single entry, which is why one
`pte_basic_t` is allocated for it). -/
def hugepte_offset (hpd va : Nat) : Nat :=
  hpd + (va % 2 ^ PGDIR_SHIFT) / 2 ^ PAGE_SHIFT_8M

/-- `early_hugepd_alloc_kernel(pmdp, va)` with `pmdp` the slot index `i`:
if slot `i` holds the zero sentinel, call `memblock_alloc(sizeof(pte_basic_t),
SZ_4K)`; on NULL return NULL leaving the slots alone, otherwise register the
allocation into slot `i` and slot `i + 1`; finally return
`hugepte_offset(*pmdp, va, PGDIR_SHIFT)`.  Result: the returned sub-entry
handle (`none` = NULL), the updated slots, and the allocator requests made. -/
def early_hugepd_alloc_kernel (alloc : Nat) (slots : Nat → Nat) (i va : Nat) :
    Option Nat × (Nat → Nat) × List (Nat × Nat) :=
  if slots i = 0 then
    let ptep := alloc
    if ptep = 0 then (none, slots, [(sizeof_pte_basic_t, SZ_4K)])
    else
      let slots1 := fun j => if j = i then ptep else slots j
      let slots2 := fun j => if j = i + 1 then ptep else slots1 j
      (some (hugepte_offset ptep va), slots2, [(sizeof_pte_basic_t, SZ_4K)])
  else (some (hugepte_offset (slots i) va), slots, [])

/-! ### The boot mapper (`mmu_mapin_ram`)

`_etext`, `_sinittext`, `_einittext` are linker symbols and
`strict_kernel_rwx_enabled()` / `debug_pagealloc_enabled_or_kfence()` boot
configuration, all external, gathered in `RamCfg` (the addresses are the
physical ones, `__pa` already applied).  The calls the function makes are
recorded as an event trace, in order. -/

structure RamCfg where
  etext : Nat
  sinittext : Nat
  einittext : Nat
  strictRwx : Bool
  debugPagealloc : Bool

/-- Protection-attribute constants (external `pgprot_t` values), represented
by distinct tags. -/
def PAGE_KERNEL_TEXT : Nat := 1

def PAGE_KERNEL : Nat := 2

def PAGE_KERNEL_ROX : Nat := 3

def PAGE_KERNEL_NCG : Nat := 4

/-- The externally visible calls `mmu_mapin_ram` makes, in order. -/
inductive Event where
  | immr
  | chunk (offset top prot : Nat) (new : Bool)
  | setLimit (n : Nat)
  | setBlockMappedRam (n : Nat)
deriving DecidableEq, Repr

/-- Is the event a `mmu_mapin_ram_chunk` call? -/
def Event.isChunk : Event → Bool
  | .chunk _ _ _ _ => true
  | _ => false

/-- Is the event the `block_mapped_ram = top` assignment? -/
def Event.isSetRam : Event → Bool
  | .setBlockMappedRam _ => true
  | _ => false

/-- `boundary = strict_boundary ? sinittext : etext8` with `strict_boundary =
strict_kernel_rwx_enabled() || debug_pagealloc_enabled_or_kfence()`. -/
def ram_boundary (cfg : RamCfg) : Nat :=
  if cfg.strictRwx || cfg.debugPagealloc then cfg.sinittext
  else alignUp cfg.etext SZ_8M

/-- `mmu_mapin_ram(base, top)`: returns the returned `top` and the trace of
calls made (`WARN_ON(top < einittext8)` emits a diagnostic only and is not an
event; `base` is unused by the source body). -/
def mmu_mapin_ram (cfg : RamCfg) (base top : Nat) : Nat × List Event :=
  let boundary := ram_boundary cfg
  let einittext8 := alignUp cfg.einittext SZ_8M
  let ev0 := [Event.immr, Event.chunk 0 boundary PAGE_KERNEL_TEXT true]
  let tr :=
    if cfg.debugPagealloc then (boundary, ev0)
    else (top, ev0 ++ [Event.chunk boundary einittext8 PAGE_KERNEL_TEXT true,
                       Event.chunk einittext8 top PAGE_KERNEL true])
  let evs := if SZ_32M < tr.1 then tr.2 ++ [Event.setLimit tr.1] else tr.2
  (tr.1, evs ++ [Event.setBlockMappedRam tr.1])

/-! ### The window limiter (`setup_initial_memory_limit`) -/

/-- The fatal `BUG_ON` class of spec section 7. -/
inductive BootAbort where
  | BootInvariantViolation
deriving DecidableEq, Repr

/-- `setup_initial_memory_limit(first_memblock_base, first_memblock_size)`:
`BUG_ON(first_memblock_base != 0)`, then
`memblock_set_current_limit(min_t(u64, first_memblock_size, SZ_32M))`;
the model returns the limit value set, or the boot abort. -/
def setup_initial_memory_limit (base size : Nat) : Except BootAbort Nat :=
  if base ≠ 0 then .error .BootInvariantViolation
  else .ok (min size SZ_32M)

/-! ### Arithmetic facts about the alignment macros -/

theorem alignDown_dvd (x a : Nat) : a ∣ alignDown x a :=
  Dvd.intro_left (x / a) rfl

theorem alignDown_le (x a : Nat) : alignDown x a ≤ x :=
  Nat.div_mul_le_self x a

theorem lt_alignDown_add (x a : Nat) (ha : 0 < a) : x < alignDown x a + a := by
  have h1 := Nat.div_add_mod x a
  have h2 := Nat.mod_lt x ha
  calc x = a * (x / a) + x % a := h1.symm
    _ < a * (x / a) + a := Nat.add_lt_add_left h2 _
    _ = alignDown x a + a := by rw [alignDown, Nat.mul_comm]

theorem alignUp_dvd (x a : Nat) : a ∣ alignUp x a :=
  alignDown_dvd _ _

theorem le_alignUp (x a : Nat) (ha : 0 < a) : x ≤ alignUp x a := by
  have := lt_alignDown_add (x + (a - 1)) a ha
  unfold alignUp
  omega

theorem alignUp_lt_add (x a : Nat) (ha : 0 < a) : alignUp x a < x + a := by
  have := alignDown_le (x + (a - 1)) a
  unfold alignUp
  omega

/-- Two multiples of `a` strictly apart are at least `a` apart. -/
theorem dvd_add_le_of_lt {a p q : Nat} (hp : a ∣ p) (hq : a ∣ q) (h : p < q) :
    p + a ≤ q := by
  have hd : a ∣ q - p := Nat.dvd_sub' hq hp
  have := Nat.le_of_dvd (by omega) hd
  omega

theorem alignUp_le_of_dvd_le {a x m : Nat} (hm : a ∣ m) (hx : x ≤ m)
    (ha : 0 < a) : alignUp x a ≤ m := by
  by_contra hlt
  have h := dvd_add_le_of_lt hm (alignUp_dvd x a) (by omega)
  have := alignUp_lt_add x a ha
  omega

theorem le_alignDown_of_dvd_le {a x m : Nat} (hm : a ∣ m) (hx : m ≤ x)
    (ha : 0 < a) : m ≤ alignDown x a := by
  by_contra hlt
  have h := dvd_add_le_of_lt (alignDown_dvd x a) hm (by omega)
  have := lt_alignDown_add x a ha
  omega

theorem alignUp_eq_self {a x : Nat} (hx : a ∣ x) (ha : 0 < a) :
    alignUp x a = x :=
  Nat.le_antisymm (alignUp_le_of_dvd_le hx le_rfl ha) (le_alignUp x a ha)

theorem alignDown_eq_self {a x : Nat} (hx : a ∣ x) (ha : 0 < a) :
    alignDown x a = x :=
  Nat.le_antisymm (alignDown_le x a) (le_alignDown_of_dvd_le hx le_rfl ha)

/-- The first loop's guard `p < ALIGN(p, SZ_8M)` holds exactly off the 8 MB
grid. -/
theorem lt_alignUp_iff {a x : Nat} (ha : 0 < a) :
    x < alignUp x a ↔ ¬a ∣ x := by
  constructor
  · intro h hdvd
    have := alignUp_eq_self hdvd ha
    omega
  · intro hnd
    have h1 := le_alignUp x a ha
    rcases Nat.lt_or_ge x (alignUp x a) with h | h
    · exact h
    · have : alignUp x a = x := by omega
      exact absurd (this ▸ alignUp_dvd x a) hnd

/-- The unique multiple of `a` in `[x, x + a)` is `ALIGN(x, a)`. -/
theorem alignUp_eq_of {a x m : Nat} (hm : a ∣ m) (h1 : x ≤ m) (h2 : m < x + a)
    (ha : 0 < a) : alignUp x a = m := by
  have hle := alignUp_le_of_dvd_le hm h1 ha
  have hge := le_alignUp x a ha
  rcases Nat.lt_or_ge (alignUp x a) m with h | h
  · have := dvd_add_le_of_lt (alignUp_dvd x a) hm h
    omega
  · omega

/-! ### Exact tiling

`Tiles l lo hi` says the `(start, size)` pairs of `l` exactly tile the
half-open interval `[lo, hi)`: the first chunk starts at `lo`, every chunk is
non-empty and begins where the previous one ends, and the last ends at `hi`.
This is the "contiguous, in increasing address order, no overlaps, no gaps,
union covers the range" property in one predicate; `tiles_cover` below spells
out the union property. -/

def Tiles : List (Nat × Nat) → Nat → Nat → Prop
  | [], lo, hi => lo = hi
  | c :: l, lo, hi => c.1 = lo ∧ 0 < c.2 ∧ Tiles l (lo + c.2) hi

theorem tiles_append {l1 l2 : List (Nat × Nat)} {a b c : Nat}
    (h1 : Tiles l1 a b) (h2 : Tiles l2 b c) : Tiles (l1 ++ l2) a c := by
  induction l1 generalizing a with
  | nil => simpa [Tiles] using h1 ▸ h2
  | cons x l ih =>
    obtain ⟨hx, hpos, htl⟩ := h1
    exact ⟨hx, hpos, ih htl⟩

theorem tiles_le {l : List (Nat × Nat)} {a b : Nat} (h : Tiles l a b) :
    a ≤ b := by
  induction l generalizing a with
  | nil => simp only [Tiles] at h; omega
  | cons x l ih =>
    obtain ⟨hx, hpos, htl⟩ := h
    have := ih htl
    omega

theorem tiles_nil_of_eq {l : List (Nat × Nat)} {a : Nat} (h : Tiles l a a) :
    l = [] := by
  cases l with
  | nil => rfl
  | cons x l =>
    obtain ⟨hx, hpos, htl⟩ := h
    have := tiles_le htl
    omega

/-- A tiling covers exactly the tiled interval. -/
theorem tiles_cover {l : List (Nat × Nat)} {a b : Nat} (h : Tiles l a b)
    (x : Nat) : (a ≤ x ∧ x < b) ↔ ∃ c ∈ l, c.1 ≤ x ∧ x < c.1 + c.2 := by
  induction l generalizing a with
  | nil =>
    simp only [Tiles] at h
    subst h
    constructor
    · intro hx
      exact absurd hx (by omega)
    · rintro ⟨c, hc, _⟩
      exact absurd hc (List.not_mem_nil c)
  | cons c l ih =>
    obtain ⟨hc, hpos, htl⟩ := h
    have hle := tiles_le htl
    constructor
    · intro hx
      rcases Nat.lt_or_ge x (a + c.2) with hin | hout
      · exact ⟨c, List.mem_cons_self c l, by omega⟩
      · obtain ⟨d, hd, hdx⟩ := (ih htl).1 (by omega)
        exact ⟨d, List.mem_cons_of_mem c hd, hdx⟩
    · rintro ⟨d, hd, hdx⟩
      rcases List.mem_cons.1 hd with rfl | hd
      · omega
      · have := (ih htl).2 ⟨d, hd, hdx⟩
        omega

/-- A tiling by constant-size chunks has a forced length. -/
theorem tiles_length_const {l : List (Nat × Nat)} {a b s : Nat}
    (h : Tiles l a b) (hs : ∀ c ∈ l, c.2 = s) : a + l.length * s = b := by
  induction l generalizing a with
  | nil => simpa [Tiles] using h
  | cons c l ih =>
    obtain ⟨hc, hpos, htl⟩ := h
    have hcs := hs c (List.mem_cons_self c l)
    have := ih htl (fun d hd => hs d (List.mem_cons_of_mem c hd))
    simp only [List.length_cons, Nat.succ_mul]
    omega

/-- Shifting every chunk start by a constant shifts the tiled interval. -/
theorem tiles_shift {l : List (Nat × Nat)} {a b k : Nat} (h : Tiles l a b) :
    Tiles (l.map fun c => (k + c.1, c.2)) (k + a) (k + b) := by
  induction l generalizing a with
  | nil => simpa [Tiles] using congrArg (k + ·) h
  | cons c l ih =>
    obtain ⟨hc, hpos, htl⟩ := h
    refine ⟨by simp [hc], hpos, ?_⟩
    have := ih htl
    simpa [Nat.add_assoc] using this

/-! ### Behaviour of the three chunk loops when no install fails

Each loop is entered with `v = PAGE_OFFSET + p` (the two variables advance in
lock step from `v = PAGE_OFFSET + offset`, `p = offset`), and with `err = 0`
when every install succeeds. -/

theorem SZ_512K_dvd_SZ_8M : SZ_512K ∣ SZ_8M := ⟨16, rfl⟩

theorem chunkLoop3_spec (ok : Installer) (hok : ∀ v p s, ok v p s = true)
    (top : Nat) (ht : SZ_512K ∣ top) :
    ∀ fuel p, top - p ≤ fuel → SZ_512K ∣ p → p ≤ top →
      ∃ l, chunkLoop3 ok fuel (PAGE_OFFSET + p) p top false
          = (l, PAGE_OFFSET + top, top, false)
        ∧ Tiles (l.map fun c => (c.p, psizeBytes c.psize)) p top
        ∧ ∀ c ∈ l, c.psize = MmuPsize.MMU_PAGE_512K ∧ c.v = PAGE_OFFSET + c.p := by
  intro fuel
  induction fuel with
  | zero =>
    intro p hn hp hpt
    have hpe : p = top := by omega
    subst hpe
    exact ⟨[], rfl, rfl, by simp⟩
  | succ n ih =>
    intro p hn hp hpt
    rcases Nat.lt_or_ge p top with hlt | hge
    · have had : alignDown top SZ_512K = top := alignDown_eq_self ht (by decide)
      have hstep : p + SZ_512K ≤ top := dvd_add_le_of_lt hp ht hlt
      obtain ⟨l, heq, htiles, hall⟩ :=
        ih (p + SZ_512K) (by simp only [SZ_512K] at *; omega)
          (Nat.dvd_add hp dvd_rfl) hstep
      refine ⟨⟨PAGE_OFFSET + p, p, MmuPsize.MMU_PAGE_512K⟩ :: l, ?_, ?_, ?_⟩
      · simp only [chunkLoop3]
        rw [if_pos ⟨by rw [had]; exact hlt, hlt, by trivial⟩]
        simp only [hok, Bool.not_true, Nat.add_assoc]
        rw [heq]
      · exact ⟨rfl, show 0 < SZ_512K by decide, htiles⟩
      · intro c hc
        rcases List.mem_cons.1 hc with rfl | hc
        · exact ⟨rfl, rfl⟩
        · exact hall c hc
    · have hpe : p = top := by omega
      subst hpe
      refine ⟨[], ?_, rfl, by simp⟩
      simp only [chunkLoop3]
      rw [if_neg (fun hc => absurd hc.2.1 (Nat.lt_irrefl p))]

theorem chunkLoop1_spec (ok : Installer) (hok : ∀ v p s, ok v p s = true)
    (top : Nat) (ht : SZ_512K ∣ top) :
    ∀ fuel p, top - p ≤ fuel → SZ_512K ∣ p → p ≤ top →
      ∃ l, chunkLoop1 ok fuel (PAGE_OFFSET + p) p top false
          = (l, PAGE_OFFSET + min (alignUp p SZ_8M) top,
             min (alignUp p SZ_8M) top, false)
        ∧ Tiles (l.map fun c => (c.p, psizeBytes c.psize)) p
            (min (alignUp p SZ_8M) top)
        ∧ ∀ c ∈ l, c.psize = MmuPsize.MMU_PAGE_512K ∧ c.v = PAGE_OFFSET + c.p := by
  intro fuel
  induction fuel with
  | zero =>
    intro p hn hp hpt
    have hpe : p = top := by omega
    subst hpe
    have hm : min (alignUp p SZ_8M) p = p :=
      Nat.min_eq_right (le_alignUp p SZ_8M (by decide))
    rw [hm]
    exact ⟨[], rfl, rfl, by simp⟩
  | succ n ih =>
    intro p hn hp hpt
    rcases Nat.lt_or_ge p (alignUp p SZ_8M) with hlt1 | hge1
    · rcases Nat.lt_or_ge p top with hlt2 | hge2
      · have hS8 : SZ_512K ∣ alignUp p SZ_8M :=
          dvd_trans SZ_512K_dvd_SZ_8M (alignUp_dvd p SZ_8M)
        have hs1 : p + SZ_512K ≤ alignUp p SZ_8M := dvd_add_le_of_lt hp hS8 hlt1
        have hs2 : p + SZ_512K ≤ top := dvd_add_le_of_lt hp ht hlt2
        have halg2 : alignUp (p + SZ_512K) SZ_8M = alignUp p SZ_8M := by
          refine alignUp_eq_of (alignUp_dvd p SZ_8M) hs1 ?_ (by decide)
          have := alignUp_lt_add p SZ_8M (by decide)
          simp only [SZ_512K, SZ_8M] at *
          omega
        obtain ⟨l, heq, htiles, hall⟩ :=
          ih (p + SZ_512K) (by simp only [SZ_512K] at *; omega)
            (Nat.dvd_add hp dvd_rfl) hs2
        rw [halg2] at heq htiles
        refine ⟨⟨PAGE_OFFSET + p, p, MmuPsize.MMU_PAGE_512K⟩ :: l, ?_, ?_, ?_⟩
        · simp only [chunkLoop1]
          rw [if_pos ⟨hlt1, hlt2, by trivial⟩]
          simp only [hok, Bool.not_true, Nat.add_assoc]
          rw [heq]
        · exact ⟨rfl, show 0 < SZ_512K by decide, htiles⟩
        · intro c hc
          rcases List.mem_cons.1 hc with rfl | hc
          · exact ⟨rfl, rfl⟩
          · exact hall c hc
      · have hpe : p = top := by omega
        subst hpe
        have hm : min (alignUp p SZ_8M) p = p :=
          Nat.min_eq_right (le_alignUp p SZ_8M (by decide))
        rw [hm]
        refine ⟨[], ?_, rfl, by simp⟩
        simp only [chunkLoop1]
        rw [if_neg (fun hc => absurd hc.2.1 (Nat.lt_irrefl p))]
    · have halg : alignUp p SZ_8M = p := by
        have := le_alignUp p SZ_8M (by decide)
        omega
      have hm : min (alignUp p SZ_8M) top = p := by
        rw [halg]
        exact Nat.min_eq_left hpt
      rw [hm]
      refine ⟨[], ?_, rfl, by simp⟩
      simp only [chunkLoop1]
      rw [if_neg (fun hc => absurd hc.1 (by omega))]

theorem chunkLoop2_spec (ok : Installer) (hok : ∀ v p s, ok v p s = true)
    (top : Nat) :
    ∀ fuel p, top - p ≤ fuel → SZ_8M ∣ p → p ≤ alignDown top SZ_8M →
      ∃ l, chunkLoop2 ok fuel (PAGE_OFFSET + p) p top false
          = (l, PAGE_OFFSET + alignDown top SZ_8M, alignDown top SZ_8M, false)
        ∧ Tiles (l.map fun c => (c.p, psizeBytes c.psize)) p
            (alignDown top SZ_8M)
        ∧ ∀ c ∈ l, c.psize = MmuPsize.MMU_PAGE_8M ∧ c.v = PAGE_OFFSET + c.p
            ∧ SZ_8M ∣ c.p := by
  intro fuel
  induction fuel with
  | zero =>
    intro p hn hp hple
    have hda := alignDown_le top SZ_8M
    have hpe : p = alignDown top SZ_8M := by omega
    subst hpe
    exact ⟨[], rfl, rfl, by simp⟩
  | succ n ih =>
    intro p hn hp hple
    have hda := alignDown_le top SZ_8M
    rcases Nat.lt_or_ge p (alignDown top SZ_8M) with hlt | hge
    · have hstep : p + SZ_8M ≤ alignDown top SZ_8M :=
        dvd_add_le_of_lt hp (alignDown_dvd top SZ_8M) hlt
      obtain ⟨l, heq, htiles, hall⟩ :=
        ih (p + SZ_8M) (by simp only [SZ_8M] at *; omega)
          (Nat.dvd_add hp dvd_rfl) hstep
      refine ⟨⟨PAGE_OFFSET + p, p, MmuPsize.MMU_PAGE_8M⟩ :: l, ?_, ?_, ?_⟩
      · simp only [chunkLoop2]
        rw [if_pos ⟨hlt, by omega, by trivial⟩]
        simp only [hok, Bool.not_true, Nat.add_assoc]
        rw [heq]
      · exact ⟨rfl, show 0 < SZ_8M by decide, htiles⟩
      · intro c hc
        rcases List.mem_cons.1 hc with rfl | hc
        · exact ⟨rfl, rfl, hp⟩
        · exact hall c hc
    · have hpe : p = alignDown top SZ_8M := by omega
      subst hpe
      refine ⟨[], ?_, rfl, by simp⟩
      simp only [chunkLoop2]
      rw [if_neg (fun hc => absurd hc.1 (by omega))]

/-- The second loop does nothing when entered with `p = top` (its guard
`p < ALIGN_DOWN(top, SZ_8M)` needs `p < top`). -/
theorem chunkLoop2_at_top (ok : Installer) (fuel v top : Nat) (err : Bool) :
    chunkLoop2 ok fuel v top top err = ([], v, top, err) := by
  cases fuel with
  | zero => rfl
  | succ n =>
    simp only [chunkLoop2]
    rw [if_neg (fun hc => absurd hc.2.1 (Nat.lt_irrefl top))]

/-- The third loop does nothing when entered with `p = top`. -/
theorem chunkLoop3_at_top (ok : Installer) (fuel v top : Nat) (err : Bool) :
    chunkLoop3 ok fuel v top top err = ([], v, top, err) := by
  cases fuel with
  | zero => rfl
  | succ n =>
    simp only [chunkLoop3]
    rw [if_neg (fun hc => absurd hc.2.1 (Nat.lt_irrefl top))]

/-- The whole of `mmu_mapin_ram_chunk` on a 512 KB-aligned range with no
failing install: the final `p` is `top`, the final `v` is `PAGE_OFFSET + top`,
`err` stays 0, the attempted chunks tile `[offset, top)` exactly, and every
chunk is installed at `v = PAGE_OFFSET + p` with an 8 MB chunk only on the
8 MB grid. -/
theorem mmu_mapin_ram_chunk_run_spec (ok : Installer)
    (hok : ∀ v p s, ok v p s = true) (offset top : Nat)
    (ho : SZ_512K ∣ offset) (ht : SZ_512K ∣ top) (hot : offset ≤ top) :
    ∃ l, mmu_mapin_ram_chunk_run ok offset top
        = (l, PAGE_OFFSET + top, top, false)
      ∧ Tiles (l.map fun c => (c.p, psizeBytes c.psize)) offset top
      ∧ ∀ c ∈ l, c.v = PAGE_OFFSET + c.p
          ∧ (c.psize = MmuPsize.MMU_PAGE_512K ∨ c.psize = MmuPsize.MMU_PAGE_8M)
          ∧ (c.psize = MmuPsize.MMU_PAGE_8M → SZ_8M ∣ c.p) := by
  obtain ⟨l1, he1, ht1, ha1⟩ :=
    chunkLoop1_spec ok hok top ht top offset (by omega) ho hot
  rcases le_or_lt (alignUp offset SZ_8M) top with halign | halign
  · have hq1 : min (alignUp offset SZ_8M) top = alignUp offset SZ_8M :=
      Nat.min_eq_left halign
    rw [hq1] at he1 ht1
    have h8 : SZ_8M ∣ alignUp offset SZ_8M := alignUp_dvd offset SZ_8M
    have hql : alignUp offset SZ_8M ≤ alignDown top SZ_8M :=
      le_alignDown_of_dvd_le h8 halign (by decide)
    have hda := alignDown_le top SZ_8M
    obtain ⟨l2, he2, ht2, ha2⟩ :=
      chunkLoop2_spec ok hok top top (alignUp offset SZ_8M) (by omega) h8 hql
    have hS2 : SZ_512K ∣ alignDown top SZ_8M :=
      dvd_trans SZ_512K_dvd_SZ_8M (alignDown_dvd top SZ_8M)
    obtain ⟨l3, he3, ht3, ha3⟩ :=
      chunkLoop3_spec ok hok top ht top (alignDown top SZ_8M) (by omega) hS2 hda
    refine ⟨l1 ++ l2 ++ l3, ?_, ?_, ?_⟩
    · simp only [mmu_mapin_ram_chunk_run]
      rw [he1]
      dsimp only
      rw [he2]
      dsimp only
      rw [he3]
    · simp only [List.map_append]
      exact tiles_append (tiles_append ht1 ht2) ht3
    · intro c hc
      rcases List.mem_append.1 hc with h12 | h3
      · rcases List.mem_append.1 h12 with h1 | h2
        · obtain ⟨hsz, hv⟩ := ha1 c h1
          refine ⟨hv, Or.inl hsz, fun hh => ?_⟩
          rw [hsz] at hh
          exact absurd hh (by decide)
        · obtain ⟨hsz, hv, hd⟩ := ha2 c h2
          exact ⟨hv, Or.inr hsz, fun _ => hd⟩
      · obtain ⟨hsz, hv⟩ := ha3 c h3
        refine ⟨hv, Or.inl hsz, fun hh => ?_⟩
        rw [hsz] at hh
        exact absurd hh (by decide)
  · have hq1 : min (alignUp offset SZ_8M) top = top :=
      Nat.min_eq_right (Nat.le_of_lt halign)
    rw [hq1] at he1 ht1
    refine ⟨l1, ?_, ht1, ?_⟩
    · simp only [mmu_mapin_ram_chunk_run]
      rw [he1]
      dsimp only
      rw [chunkLoop2_at_top]
      dsimp only
      rw [chunkLoop3_at_top]
      simp
    · intro c hc
      obtain ⟨hsz, hv⟩ := ha1 c hc
      refine ⟨hv, Or.inl hsz, fun hh => ?_⟩
      rw [hsz] at hh
      exact absurd hh (by decide)

/-! ### Claim C1 — tiling completeness of the range mapper -/

/-- C1: for every 512 KB-aligned pair `(offset, top)` with `offset < top`,
when no chunk install fails, the chunks installed by `mmu_mapin_ram_chunk`
exactly tile the virtual range `[PAGE_OFFSET + offset, PAGE_OFFSET + top)`:
`Tiles` states that they are contiguous, in increasing address order, do not
overlap and leave no gap (using only the two size classes `psizeBytes` knows,
512 KB and 8 MB), and the second conjunct spells out that their union covers
exactly that range. -/
theorem mmu_mapin_ram_chunk_tiling (ok : Installer) (offset top : Nat)
    (hok : ∀ v p s, ok v p s = true)
    (ho : SZ_512K ∣ offset) (ht : SZ_512K ∣ top) (hlt : offset < top) :
    Tiles (((mmu_mapin_ram_chunk_run ok offset top).1).map
        fun c => (c.v, psizeBytes c.psize))
      (PAGE_OFFSET + offset) (PAGE_OFFSET + top)
    ∧ ∀ a, (PAGE_OFFSET + offset ≤ a ∧ a < PAGE_OFFSET + top) ↔
        ∃ c ∈ (mmu_mapin_ram_chunk_run ok offset top).1,
          c.v ≤ a ∧ a < c.v + psizeBytes c.psize := by
  obtain ⟨l, he, htiles, hall⟩ :=
    mmu_mapin_ram_chunk_run_spec ok hok offset top ho ht (Nat.le_of_lt hlt)
  rw [he]
  dsimp only
  have hvmap : (l.map fun c => (c.v, psizeBytes c.psize))
      = l.map fun c => (PAGE_OFFSET + c.p, psizeBytes c.psize) :=
    List.map_congr_left (fun c hc => by rw [(hall c hc).1])
  have hvt : Tiles (l.map fun c => (c.v, psizeBytes c.psize))
      (PAGE_OFFSET + offset) (PAGE_OFFSET + top) := by
    rw [hvmap]
    have hsh := tiles_shift (k := PAGE_OFFSET) htiles
    simpa [List.map_map, Function.comp] using hsh
  refine ⟨hvt, fun a => (tiles_cover hvt a).trans ?_⟩
  constructor
  · rintro ⟨pr, hpr, h1, h2⟩
    obtain ⟨c, hc, rfl⟩ := List.mem_map.1 hpr
    exact ⟨c, hc, h1, h2⟩
  · rintro ⟨c, hc, h1, h2⟩
    exact ⟨_, List.mem_map_of_mem _ hc, h1, h2⟩

/-- C1 witness: the hypotheses hold and the theorem applies at the concrete
aligned pair `(0, SZ_8M)` with the all-successful installer. -/
theorem mmu_mapin_ram_chunk_tiling_witness :
    (SZ_512K ∣ 0 ∧ SZ_512K ∣ SZ_8M ∧ 0 < SZ_8M)
    ∧ (Tiles (((mmu_mapin_ram_chunk_run okAll 0 SZ_8M).1).map
          fun c => (c.v, psizeBytes c.psize))
        (PAGE_OFFSET + 0) (PAGE_OFFSET + SZ_8M)
      ∧ ∀ a, (PAGE_OFFSET + 0 ≤ a ∧ a < PAGE_OFFSET + SZ_8M) ↔
          ∃ c ∈ (mmu_mapin_ram_chunk_run okAll 0 SZ_8M).1,
            c.v ≤ a ∧ a < c.v + psizeBytes c.psize) :=
  ⟨⟨dvd_zero _, SZ_512K_dvd_SZ_8M, by decide⟩,
   mmu_mapin_ram_chunk_tiling okAll 0 SZ_8M (fun _ _ _ => rfl)
     (dvd_zero _) SZ_512K_dvd_SZ_8M (by decide)⟩

/-! ### Claim C5 — size legality of every installed chunk -/

/-- The per-chunk legality of spec property 2: the chunk's size is 512 KB or
8 MB, and an 8 MB chunk starts and ends 8 MB-aligned (physically and
virtually). -/
def chunkLegal (c : Chunk) : Bool :=
  (psizeBytes c.psize == SZ_512K || psizeBytes c.psize == SZ_8M)
    && (!(c.psize == MmuPsize.MMU_PAGE_8M)
        || (decide (SZ_8M ∣ c.p) && decide (SZ_8M ∣ (c.p + SZ_8M))
            && decide (SZ_8M ∣ c.v) && decide (SZ_8M ∣ (c.v + SZ_8M))))

/-- The first loop keeps `v = PAGE_OFFSET + p`, emits only 512 KB chunks at
`v = PAGE_OFFSET + p`, and — whatever the inputs, aligned or not, failing
installer or not — exits either on the 8 MB grid, or at/after `top`, or with
a failed install.  (`top - p ≤ fuel` holds at every entry, since the run
passes `fuel = top`.) -/
theorem chunkLoop1_inv (ok : Installer) (top : Nat) :
    ∀ fuel v p err, top - p ≤ fuel → v = PAGE_OFFSET + p →
      (∀ c ∈ (chunkLoop1 ok fuel v p top err).1,
        c.psize = MmuPsize.MMU_PAGE_512K ∧ c.v = PAGE_OFFSET + c.p)
      ∧ (chunkLoop1 ok fuel v p top err).2.1
          = PAGE_OFFSET + (chunkLoop1 ok fuel v p top err).2.2.1
      ∧ (SZ_8M ∣ (chunkLoop1 ok fuel v p top err).2.2.1
          ∨ top ≤ (chunkLoop1 ok fuel v p top err).2.2.1
          ∨ (chunkLoop1 ok fuel v p top err).2.2.2 = true) := by
  intro fuel
  induction fuel with
  | zero =>
    intro v p err hn hv
    simp only [chunkLoop1]
    exact ⟨by simp, hv, Or.inr (Or.inl (by omega))⟩
  | succ n ih =>
    intro v p err hn hv
    by_cases hc : p < alignUp p SZ_8M ∧ p < top ∧ err = false
    · obtain ⟨hall, hlink, hexit⟩ :=
        ih (v + SZ_512K) (p + SZ_512K) (!(ok v p MmuPsize.MMU_PAGE_512K))
          (by simp only [SZ_512K] at *; omega) (by omega)
      simp only [chunkLoop1, if_pos hc]
      refine ⟨?_, hlink, hexit⟩
      intro c hcm
      rcases List.mem_cons.1 hcm with rfl | hcm
      · exact ⟨rfl, hv⟩
      · exact hall c hcm
    · simp only [chunkLoop1, if_neg hc]
      refine ⟨by simp, hv, ?_⟩
      cases herr : err with
      | true => exact Or.inr (Or.inr rfl)
      | false =>
        rcases Nat.lt_or_ge p (alignUp p SZ_8M) with h1 | h1
        · rcases Nat.lt_or_ge p top with h2 | h2
          · exact absurd ⟨h1, h2, herr⟩ hc
          · exact Or.inr (Or.inl h2)
        · have hle := le_alignUp p SZ_8M (by decide)
          have heq : alignUp p SZ_8M = p := by omega
          exact Or.inl (heq ▸ alignUp_dvd p SZ_8M)

/-- The second loop keeps `v = PAGE_OFFSET + p` and — whatever its inputs, as
long as it is entered off the guard of the first loop (on the 8 MB grid, or
at/after `top`, or with a failed install) — emits only 8 MB chunks placed on
the 8 MB grid at `v = PAGE_OFFSET + p`. -/
theorem chunkLoop2_inv (ok : Installer) (top : Nat) :
    ∀ fuel v p err, v = PAGE_OFFSET + p →
      (SZ_8M ∣ p ∨ top ≤ p ∨ err = true) →
      (∀ c ∈ (chunkLoop2 ok fuel v p top err).1,
        c.psize = MmuPsize.MMU_PAGE_8M ∧ c.v = PAGE_OFFSET + c.p
          ∧ SZ_8M ∣ c.p)
      ∧ (chunkLoop2 ok fuel v p top err).2.1
          = PAGE_OFFSET + (chunkLoop2 ok fuel v p top err).2.2.1 := by
  intro fuel
  induction fuel with
  | zero =>
    intro v p err hv hentry
    simp only [chunkLoop2]
    exact ⟨by simp, hv⟩
  | succ n ih =>
    intro v p err hv hentry
    by_cases hc : p < alignDown top SZ_8M ∧ p < top ∧ err = false
    · have h8 : SZ_8M ∣ p := by
        rcases hentry with h | h | h
        · exact h
        · omega
        · rw [hc.2.2] at h
          cases h
      obtain ⟨hall, hlink⟩ :=
        ih (v + SZ_8M) (p + SZ_8M) (!(ok v p MmuPsize.MMU_PAGE_8M))
          (by omega) (Or.inl (Nat.dvd_add h8 dvd_rfl))
      simp only [chunkLoop2, if_pos hc]
      refine ⟨?_, hlink⟩
      intro c hcm
      rcases List.mem_cons.1 hcm with rfl | hcm
      · exact ⟨rfl, hv, h8⟩
      · exact hall c hcm
    · simp only [chunkLoop2, if_neg hc]
      exact ⟨by simp, hv⟩

/-- The third loop keeps `v = PAGE_OFFSET + p` and emits only 512 KB chunks
at `v = PAGE_OFFSET + p`, whatever its inputs. -/
theorem chunkLoop3_inv (ok : Installer) (top : Nat) :
    ∀ fuel v p err, v = PAGE_OFFSET + p →
      (∀ c ∈ (chunkLoop3 ok fuel v p top err).1,
        c.psize = MmuPsize.MMU_PAGE_512K ∧ c.v = PAGE_OFFSET + c.p)
      ∧ (chunkLoop3 ok fuel v p top err).2.1
          = PAGE_OFFSET + (chunkLoop3 ok fuel v p top err).2.2.1 := by
  intro fuel
  induction fuel with
  | zero =>
    intro v p err hv
    simp only [chunkLoop3]
    exact ⟨by simp, hv⟩
  | succ n ih =>
    intro v p err hv
    by_cases hc : p < alignDown top SZ_512K ∧ p < top ∧ err = false
    · obtain ⟨hall, hlink⟩ :=
        ih (v + SZ_512K) (p + SZ_512K) (!(ok v p MmuPsize.MMU_PAGE_512K))
          (by omega)
      simp only [chunkLoop3, if_pos hc]
      refine ⟨?_, hlink⟩
      intro c hcm
      rcases List.mem_cons.1 hcm with rfl | hcm
      · exact ⟨rfl, hv⟩
      · exact hall c hcm
    · simp only [chunkLoop3, if_neg hc]
      exact ⟨by simp, hv⟩

/-- C5: on *every* call of `mmu_mapin_ram_chunk` — aligned or not, installs
failing or not — every chunk whose install is attempted has size exactly
512 KB or exactly 8 MB, and every 8 MB chunk has both its start and its end
8 MB-aligned, physically and virtually (`chunkLegal`). -/
theorem mmu_mapin_ram_chunk_size_legality (ok : Installer) (offset top : Nat) :
    ((mmu_mapin_ram_chunk_run ok offset top).1.all chunkLegal) = true := by
  obtain ⟨ha1, hl1, he1⟩ :=
    chunkLoop1_inv ok top top (PAGE_OFFSET + offset) offset false
      (by omega) rfl
  obtain ⟨ha2, hl2⟩ :=
    chunkLoop2_inv ok top top
      (chunkLoop1 ok top (PAGE_OFFSET + offset) offset top false).2.1
      (chunkLoop1 ok top (PAGE_OFFSET + offset) offset top false).2.2.1
      (chunkLoop1 ok top (PAGE_OFFSET + offset) offset top false).2.2.2
      hl1 he1
  obtain ⟨ha3, hl3⟩ :=
    chunkLoop3_inv ok top top
      (chunkLoop2 ok top
        (chunkLoop1 ok top (PAGE_OFFSET + offset) offset top false).2.1
        (chunkLoop1 ok top (PAGE_OFFSET + offset) offset top false).2.2.1
        top
        (chunkLoop1 ok top (PAGE_OFFSET + offset) offset top false).2.2.2).2.1
      (chunkLoop2 ok top
        (chunkLoop1 ok top (PAGE_OFFSET + offset) offset top false).2.1
        (chunkLoop1 ok top (PAGE_OFFSET + offset) offset top false).2.2.1
        top
        (chunkLoop1 ok top (PAGE_OFFSET + offset) offset top false).2.2.2).2.2.1
      (chunkLoop2 ok top
        (chunkLoop1 ok top (PAGE_OFFSET + offset) offset top false).2.1
        (chunkLoop1 ok top (PAGE_OFFSET + offset) offset top false).2.2.1
        top
        (chunkLoop1 ok top (PAGE_OFFSET + offset) offset top false).2.2.2).2.2.2
      hl2
  simp only [mmu_mapin_ram_chunk_run]
  refine List.all_eq_true.mpr (fun c hc => ?_)
  have hlegal : (c.psize = MmuPsize.MMU_PAGE_512K ∧ c.v = PAGE_OFFSET + c.p)
      ∨ (c.psize = MmuPsize.MMU_PAGE_8M ∧ c.v = PAGE_OFFSET + c.p
          ∧ SZ_8M ∣ c.p) := by
    rcases List.mem_append.1 hc with h12 | h3
    · rcases List.mem_append.1 h12 with h1 | h2
      · exact Or.inl (ha1 c h1)
      · exact Or.inr (ha2 c h2)
    · exact Or.inl (ha3 c h3)
  rcases hlegal with ⟨hsz, hv⟩ | ⟨hsz, hv, hp8⟩
  · simp [chunkLegal, hsz, psizeBytes]
  · have hv8 : SZ_8M ∣ c.v := by
      rw [hv]
      exact Nat.dvd_add (by decide) hp8
    simp [chunkLegal, hsz, psizeBytes, hp8, hv8,
      Nat.dvd_add hp8 dvd_rfl, Nat.dvd_add hv8 dvd_rfl]

/-! ### Claim C6 — the concrete unaligned-head example -/

/-- C6: `mmu_mapin_ram_chunk(offset = 512 KB, top = 8 MB)` with no failing
install attempts exactly fifteen chunks, all of size class `MMU_PAGE_512K`
(and none of size class `MMU_PAGE_8M`), tiling `[512 KB, 8 MB)` in increasing
order with no gaps or overlaps. -/
theorem mmu_mapin_ram_chunk_unaligned_head_example :
    (mmu_mapin_ram_chunk_run okAll SZ_512K SZ_8M).1.length = 15
    ∧ ((mmu_mapin_ram_chunk_run okAll SZ_512K SZ_8M).1.all
        fun c => c.psize == MmuPsize.MMU_PAGE_512K) = true
    ∧ Tiles (((mmu_mapin_ram_chunk_run okAll SZ_512K SZ_8M).1).map
        fun c => (c.p, psizeBytes c.psize)) SZ_512K SZ_8M
    ∧ ((mmu_mapin_ram_chunk_run okAll SZ_512K SZ_8M).1.countP
        fun c => c.psize == MmuPsize.MMU_PAGE_8M) = 0 := by
  have hok : ∀ v p s, okAll v p s = true := fun _ _ _ => rfl
  obtain ⟨l1, he1, ht1, ha1⟩ :=
    chunkLoop1_spec okAll hok SZ_8M SZ_512K_dvd_SZ_8M SZ_8M SZ_512K
      (by decide) dvd_rfl (by decide)
  have hm : min (alignUp SZ_512K SZ_8M) SZ_8M = SZ_8M := by decide
  rw [hm] at he1 ht1
  have hrun : mmu_mapin_ram_chunk_run okAll SZ_512K SZ_8M
      = (l1, PAGE_OFFSET + SZ_8M, SZ_8M, false) := by
    simp only [mmu_mapin_ram_chunk_run]
    rw [he1]
    dsimp only
    rw [chunkLoop2_at_top]
    dsimp only
    rw [chunkLoop3_at_top]
    simp
  rw [hrun]
  dsimp only
  refine ⟨?_, ?_, ht1, ?_⟩
  · have hsz : ∀ pr ∈ l1.map (fun c => (c.p, psizeBytes c.psize)),
        pr.2 = SZ_512K := by
      intro pr hpr
      obtain ⟨c, hc, rfl⟩ := List.mem_map.1 hpr
      show psizeBytes c.psize = SZ_512K
      rw [(ha1 c hc).1]
      exact rfl
    have hlen := tiles_length_const ht1 hsz
    rw [List.length_map] at hlen
    simp only [SZ_512K, SZ_8M] at hlen
    omega
  · exact List.all_eq_true.mpr (fun c hc => by rw [(ha1 c hc).1]; rfl)
  · refine List.countP_eq_zero.mpr (fun c hc => ?_)
    rw [(ha1 c hc).1]
    decide

/-! ### Claim C2 — the reprotect-mode lookaside-buffer flush range -/

/-- C2 (evidence of the divergence): at the failing input
`offset = 0, top = SZ_512K` with no failing install, the flush
`flush_tlb_kernel_range(PAGE_OFFSET + v, PAGE_OFFSET + top)` performed in
reprotect mode receives the range `[0x80080000, 0xc0080000)` — because the
final loop variable `v` is already `PAGE_OFFSET + top`, so the first argument
wraps to `(2 * PAGE_OFFSET + top) mod 2^32` — and not the re-protected
virtual range `[PAGE_OFFSET + 0, PAGE_OFFSET + SZ_512K) =
[0xc0000000, 0xc0080000)` the claim requires. -/
theorem mmu_mapin_ram_chunk_flush_bug :
    mmu_mapin_ram_chunk_flush okAll 0 SZ_512K = (0x80080000, 0xc0080000)
    ∧ (0x80080000 : Nat) ≠ PAGE_OFFSET + 0 := by
  obtain ⟨l, he, -, -⟩ :=
    mmu_mapin_ram_chunk_run_spec okAll (fun _ _ _ => rfl) 0 SZ_512K
      (dvd_zero _) dvd_rfl (by decide)
  constructor
  · simp only [mmu_mapin_ram_chunk_flush]
    rw [he]
    dsimp only
    decide
  · decide

/-! ### Claim C4 — the translators are exact inverses on the mapped windows -/

/-- C4: with the windows laid out as the platform guarantees (the RAM window
`[0, ram)` below the physical IMMR base, and the virtual RAM window
`[PAGE_OFFSET, PAGE_OFFSET + ram)` below the virtual IMMR base), for every
physical address inside the IMMR window or inside `[0, ram)`,
`v_block_mapped (p_block_mapped pa) = pa`, and for every virtual address
inside the corresponding mapped windows
`p_block_mapped (v_block_mapped va) = va` — with the IMMR window checked
before the RAM window in both directions (the first `if` of each function). -/
theorem block_mapped_roundtrip (physImmrBase virtImmrBase ram : Nat)
    (hpd : ram ≤ physImmrBase) (hvd : PAGE_OFFSET + ram ≤ virtImmrBase) :
    (∀ pa, (physImmrBase ≤ pa ∧ pa < physImmrBase + IMMR_SIZE) ∨ pa < ram →
      v_block_mapped physImmrBase virtImmrBase ram
        (p_block_mapped physImmrBase virtImmrBase ram pa) = pa)
    ∧ (∀ va, (virtImmrBase ≤ va ∧ va < virtImmrBase + IMMR_SIZE)
          ∨ (PAGE_OFFSET ≤ va ∧ va < PAGE_OFFSET + ram) →
      p_block_mapped physImmrBase virtImmrBase ram
        (v_block_mapped physImmrBase virtImmrBase ram va) = va) := by
  constructor
  · intro pa hpa
    simp only [p_block_mapped, v_block_mapped]
    split_ifs <;> omega
  · intro va hva
    simp only [p_block_mapped, v_block_mapped]
    split_ifs <;> omega

/-- C4 witness: the hypotheses hold and the theorem applies at the concrete
window layout `PHYS_IMMR_BASE = 0xff000000`, `VIRT_IMMR_BASE = 0xff780000`,
`block_mapped_ram = 32 MB`, at the mapped physical address 5. -/
theorem block_mapped_roundtrip_witness :
    ((0x2000000 : Nat) ≤ 0xff000000 ∧ PAGE_OFFSET + 0x2000000 ≤ 0xff780000)
    ∧ v_block_mapped 0xff000000 0xff780000 0x2000000
        (p_block_mapped 0xff000000 0xff780000 0x2000000 5) = 5 :=
  ⟨⟨by decide, by decide⟩,
   (block_mapped_roundtrip 0xff000000 0xff780000 0x2000000
     (by decide) (by decide)).1 5 (Or.inr (by decide))⟩

/-! ### Claim C10 — the 0 sentinel collides with a valid translation -/

/-- C10: both translators answer 0 for "not mapped", and since the RAM window
starts at physical 0 this sentinel collides with a valid translation: whenever
`block_mapped_ram > 0` (RAM window below the virtual IMMR window as on the
platform), `PAGE_OFFSET` — the first mapped RAM virtual address — lies inside
the mapped window yet `v_block_mapped` answers 0 for it, the same value it
answers for every address outside both windows, so a caller cannot tell the
two apart. -/
theorem v_block_mapped_zero_ambiguity (physImmrBase virtImmrBase ram : Nat)
    (hram : 0 < ram) (hvd : PAGE_OFFSET + ram ≤ virtImmrBase) :
    (PAGE_OFFSET ≤ PAGE_OFFSET ∧ PAGE_OFFSET < PAGE_OFFSET + ram)
    ∧ v_block_mapped physImmrBase virtImmrBase ram PAGE_OFFSET = 0
    ∧ ∀ va, ¬(virtImmrBase ≤ va ∧ va < virtImmrBase + IMMR_SIZE) →
        ¬(PAGE_OFFSET ≤ va ∧ va < PAGE_OFFSET + ram) →
        v_block_mapped physImmrBase virtImmrBase ram va = 0 := by
  refine ⟨⟨le_rfl, by omega⟩, ?_, ?_⟩
  · have h1 : ¬(virtImmrBase ≤ PAGE_OFFSET
        ∧ PAGE_OFFSET < virtImmrBase + IMMR_SIZE) := by
      rintro ⟨hh, -⟩
      omega
    simp only [v_block_mapped]
    rw [if_neg h1, if_pos ⟨le_rfl, by omega⟩]
    omega
  · intro va h1 h2
    simp only [v_block_mapped]
    rw [if_neg h1, if_neg h2]

/-- C10 witness: the hypotheses hold and the theorem applies at the concrete
layout with `block_mapped_ram = 32 MB`. -/
theorem v_block_mapped_zero_ambiguity_witness :
    ((0 : Nat) < 0x2000000 ∧ PAGE_OFFSET + 0x2000000 ≤ 0xff780000)
    ∧ v_block_mapped 0xff000000 0xff780000 0x2000000 PAGE_OFFSET = 0 :=
  ⟨⟨by decide, by decide⟩,
   (v_block_mapped_zero_ambiguity 0xff000000 0xff780000 0x2000000
     (by decide) (by decide)).2.1⟩

/-! ### Claim C9 — the 32 MB window clamp -/

/-- C9: `setup_initial_memory_limit` hits the fatal `BUG_ON` branch for every
non-zero first-region base, and for base 0 sets the limit to exactly
`min(size, 32 MB)`: 64 MB yields 32 MB and 16 MB yields 16 MB. -/
theorem setup_initial_memory_limit_spec :
    (∀ size, setup_initial_memory_limit 0 size = .ok (min size SZ_32M))
    ∧ (∀ base size, setup_initial_memory_limit (base + 1) size
        = .error .BootInvariantViolation)
    ∧ setup_initial_memory_limit 0 0x4000000 = .ok SZ_32M
    ∧ setup_initial_memory_limit 0 0x1000000 = .ok 0x1000000 := by
  refine ⟨fun size => ?_, fun base size => ?_, ?_, ?_⟩
  · simp [setup_initial_memory_limit]
  · simp [setup_initial_memory_limit]
  · simp [setup_initial_memory_limit, SZ_32M]
  · simp [setup_initial_memory_limit, SZ_32M]

/-! ### Claim C8 — what the boot mapper returns and records -/

/-- C8: `mmu_mapin_ram` returns `boundary` when debug/page-granular mode is
active — which is then the strict boundary `_sinittext`, ranges beyond it left
unmapped — and returns the `top` argument otherwise; in both cases the trace
assigns `block_mapped_ram` exactly the returned value, the assignment is the
last event of the invocation (`getLast?`), and no other assignment exists
(`dropLast` holds none) — so the assignment comes only after every
chunk-install call of the invocation. -/
theorem mmu_mapin_ram_spec (cfg : RamCfg) (base top : Nat) :
    (mmu_mapin_ram cfg base top).1
        = (if cfg.debugPagealloc then cfg.sinittext else top)
    ∧ (mmu_mapin_ram cfg base top).2.getLast?
        = some (Event.setBlockMappedRam (mmu_mapin_ram cfg base top).1)
    ∧ ((mmu_mapin_ram cfg base top).2.dropLast.countP Event.isSetRam) = 0 := by
  refine ⟨?_, ?_, ?_⟩
  · cases hd : cfg.debugPagealloc
    · simp [mmu_mapin_ram, hd]
    · simp [mmu_mapin_ram, ram_boundary, hd]
  · simp only [mmu_mapin_ram]
    exact List.getLast?_concat _
  · simp only [mmu_mapin_ram]
    rw [List.dropLast_concat]
    cases hd : cfg.debugPagealloc
    · simp only [hd, if_false, Bool.false_eq_true]
      split <;> simp [Event.isSetRam]
    · simp only [hd, if_true]
      split <;> simp [Event.isSetRam]

/-! ### Claim C3 — the no-silent-overwrite contract of the page installer -/

/-- The empty boot-time state: no entry installed, the general allocator not
yet live, the early allocator able to satisfy requests. -/
def initMState : MState := ⟨fun _ _ => none, false, true⟩

/-- The state after a first successful New-mode install of the non-null
protection 1 at `(0, MMU_PAGE_512K)`. -/
def stAfterFirst : MState :=
  (__early_map_kernel_hugepage initMState 0 0 1 MmuPsize.MMU_PAGE_512K true).2

/-- C3 counterexample: at `(0, MMU_PAGE_512K)`, whose entry is present with
the non-null protection 1, a New-mode install requesting the *null* protection
0 does not fail with `OverwriteAttempt` — the source's check at line 93 also
tests `pgprot_val(prot)` of the requested protection — and it overwrites the
entry (clearing it to a non-present one), refuting the claim as stated. -/
theorem early_map_new_null_prot_overwrites :
    stAfterFirst.table 0 MmuPsize.MMU_PAGE_512K = some ⟨0, 1, true⟩
    ∧ stAfterFirst.slabAvailable = false
    ∧ (__early_map_kernel_hugepage stAfterFirst 0 0 0
        MmuPsize.MMU_PAGE_512K true).1 = .ok ()
    ∧ (__early_map_kernel_hugepage stAfterFirst 0 0 0
        MmuPsize.MMU_PAGE_512K true).2.table 0 MmuPsize.MMU_PAGE_512K
        = some ⟨0, 0, false⟩ :=
  ⟨rfl, rfl, rfl, rfl⟩

/-- C3 (amended): for every state whose entry at `(va, sizeClass)` is present
with a non-null protection, a New-mode install *with a non-null requested
protection* fails with `OverwriteAttempt` and leaves the state unchanged —
in particular a second New-mode install with non-null protection at the same
`(va, sizeClass)` fails — while a Reprotect-mode install at the same address
succeeds, updates the protection, and touches no other entry. -/
theorem early_map_no_overwrite (st : MState) (va pa pa2 prot prot2 : Nat)
    (psize : MmuPsize) (e : MappingEntry)
    (hslab : st.slabAvailable = false)
    (he : st.table va psize = some e)
    (hpres : e.present = true)
    (heprot : e.protection ≠ 0)
    (hprot : prot ≠ 0) :
    __early_map_kernel_hugepage st va pa prot psize true
        = (.error .OverwriteAttempt, st)
    ∧ (__early_map_kernel_hugepage st va pa2 prot2 psize false).1 = .ok ()
    ∧ (__early_map_kernel_hugepage st va pa2 prot2 psize false).2.table va psize
        = some ⟨pa2, prot2, decide (prot2 ≠ 0)⟩
    ∧ ∀ va' psize', ¬(va' = va ∧ psize' = psize) →
        (__early_map_kernel_hugepage st va pa2 prot2 psize false).2.table
          va' psize' = st.table va' psize' := by
  refine ⟨?_, ?_, ?_, ?_⟩
  · simp [__early_map_kernel_hugepage, hslab, he, hpres, hprot]
  · simp [__early_map_kernel_hugepage, he]
  · simp [__early_map_kernel_hugepage, he, setEntry]
  · intro va' psize' hne
    simp only [__early_map_kernel_hugepage, he, setEntry]
    exact if_neg hne

/-- C3 witness: the amended theorem applied at the concrete state left by a
first New-mode install — the second New-mode install (protection 2) fails with
`OverwriteAttempt` and the Reprotect-mode install (protection 3) succeeds and
updates the protection. -/
theorem early_map_no_overwrite_witness :
    (stAfterFirst.slabAvailable = false
      ∧ stAfterFirst.table 0 MmuPsize.MMU_PAGE_512K = some ⟨0, 1, true⟩
      ∧ (⟨0, 1, true⟩ : MappingEntry).present = true
      ∧ (⟨0, 1, true⟩ : MappingEntry).protection ≠ 0
      ∧ (2 : Nat) ≠ 0)
    ∧ __early_map_kernel_hugepage stAfterFirst 0 7 2 MmuPsize.MMU_PAGE_512K true
        = (.error .OverwriteAttempt, stAfterFirst)
    ∧ (__early_map_kernel_hugepage stAfterFirst 0 7 3
        MmuPsize.MMU_PAGE_512K false).1 = .ok ()
    ∧ (__early_map_kernel_hugepage stAfterFirst 0 7 3
        MmuPsize.MMU_PAGE_512K false).2.table 0 MmuPsize.MMU_PAGE_512K
        = some ⟨7, 3, decide ((3 : Nat) ≠ 0)⟩ := by
  have h := early_map_no_overwrite stAfterFirst 0 7 7 2 3
    MmuPsize.MMU_PAGE_512K ⟨0, 1, true⟩ rfl rfl rfl (by decide) (by decide)
  exact ⟨⟨rfl, rfl, rfl, by decide, by decide⟩, h.1, h.2.1, h.2.2.1⟩

/-! ### Claim C7 — the huge-entry allocator -/

/-- C7 counterexample: the one allocation request the function makes (first
slot holding the zero sentinel) asks the early allocator for
`sizeof(pte_basic_t)` = 4 bytes with `SZ_4K` alignment — source line 54,
`memblock_alloc(sizeof(pte_basic_t), SZ_4K)` — not a page-sized
(`PAGE_SIZE` = 4096-byte) block as the claim states. -/
theorem early_hugepd_alloc_kernel_request_not_page_sized :
    (early_hugepd_alloc_kernel 5 (fun _ => 0) 0 0).2.2
        = [(sizeof_pte_basic_t, SZ_4K)]
    ∧ sizeof_pte_basic_t = 4
    ∧ sizeof_pte_basic_t ≠ PAGE_SIZE :=
  ⟨rfl, rfl, by decide⟩

/-- C7 (amended): when the first directory slot holds the zero sentinel,
`early_hugepd_alloc_kernel` makes exactly one early-allocator request — of
one `pte_basic_t` (4 bytes), `SZ_4K`-aligned, not a page-sized block — and on
success registers that same allocation into both the slot and the adjacent
slot (both alias one sub-table), leaving every other slot alone, and returns
the sub-entry addressed by `va`; if the allocation fails it returns NULL
without modifying either slot; when the first slot is non-zero it allocates
nothing and returns the sub-entry of the existing sub-table addressed by
`va`. -/
theorem early_hugepd_alloc_kernel_spec (alloc : Nat) (slots : Nat → Nat)
    (i va : Nat) :
    (slots i = 0 → alloc ≠ 0 →
      (early_hugepd_alloc_kernel alloc slots i va).1
          = some (hugepte_offset alloc va)
      ∧ (early_hugepd_alloc_kernel alloc slots i va).2.1 i = alloc
      ∧ (early_hugepd_alloc_kernel alloc slots i va).2.1 (i + 1) = alloc
      ∧ (∀ j, j ≠ i → j ≠ i + 1 →
          (early_hugepd_alloc_kernel alloc slots i va).2.1 j = slots j)
      ∧ (early_hugepd_alloc_kernel alloc slots i va).2.2
          = [(sizeof_pte_basic_t, SZ_4K)])
    ∧ (slots i = 0 → alloc = 0 →
      early_hugepd_alloc_kernel alloc slots i va
        = (none, slots, [(sizeof_pte_basic_t, SZ_4K)]))
    ∧ (slots i ≠ 0 →
      early_hugepd_alloc_kernel alloc slots i va
        = (some (hugepte_offset (slots i) va), slots, [])) := by
  refine ⟨fun h0 hnz => ?_, fun h0 hz => ?_, fun hnz => ?_⟩
  · have heq : early_hugepd_alloc_kernel alloc slots i va
        = (some (hugepte_offset alloc va),
           fun j => if j = i + 1 then alloc
                    else if j = i then alloc else slots j,
           [(sizeof_pte_basic_t, SZ_4K)]) := by
      simp [early_hugepd_alloc_kernel, h0, hnz]
    rw [heq]
    refine ⟨rfl, ?_, ?_, ?_, rfl⟩
    · show (if i = i + 1 then alloc else if i = i then alloc else slots i)
          = alloc
      rw [if_neg (by omega), if_pos rfl]
    · show (if i + 1 = i + 1 then alloc
          else if i + 1 = i then alloc else slots (i + 1)) = alloc
      rw [if_pos rfl]
    · intro j hji hji1
      show (if j = i + 1 then alloc else if j = i then alloc else slots j)
          = slots j
      rw [if_neg hji1, if_neg hji]
  · simp [early_hugepd_alloc_kernel, h0, hz]
  · simp [early_hugepd_alloc_kernel, hnz]

/-- C7 witness: the amended theorem applied at concrete inputs covering the
three cases (fresh slot with allocator success, fresh slot with allocator
failure, already-populated slot). -/
theorem early_hugepd_alloc_kernel_spec_witness :
    ((fun _ : Nat => 0) 0 = 0 ∧ (5 : Nat) ≠ 0
      ∧ (early_hugepd_alloc_kernel 5 (fun _ => 0) 0 9).1
          = some (hugepte_offset 5 9)
      ∧ (early_hugepd_alloc_kernel 5 (fun _ => 0) 0 9).2.1 0 = 5
      ∧ (early_hugepd_alloc_kernel 5 (fun _ => 0) 0 9).2.1 (0 + 1) = 5)
    ∧ early_hugepd_alloc_kernel 0 (fun _ => 0) 3 9
        = (none, fun _ => 0, [(sizeof_pte_basic_t, SZ_4K)])
    ∧ early_hugepd_alloc_kernel 5 (fun _ => 8) 3 9
        = (some (hugepte_offset ((fun _ : Nat => 8) 3) 9), fun _ => 8, []) := by
  have h1 := early_hugepd_alloc_kernel_spec 5 (fun _ => 0) 0 9
  have h2 := early_hugepd_alloc_kernel_spec 0 (fun _ => 0) 3 9
  have h3 := early_hugepd_alloc_kernel_spec 5 (fun _ => 8) 3 9
  obtain ⟨ha, hb, hc, -, -⟩ := h1.1 rfl (by decide)
  exact ⟨⟨rfl, by decide, ha, hb, hc⟩,
    h2.2.1 rfl rfl, h3.2.2 (by decide)⟩

end Mmu8xx
